import Mathlib

/-!
Shallow embedding of rarscan (src/main.rs), a queue-driven tool that
discovers `.rar` archives under a directory, extracts them idempotently,
follows archives nested inside archives, and removes aged source files.

Paths are modelled as strings.  The filesystem, the external unrar engine
and the glob facility are modelled as read-only oracle functions gathered
in `Env`; filesystem mutations performed by the program are recorded as an
explicit `Effect` trace instead of being applied, and `anyhow` errors and
panics are modelled by the `PStatus` outcome of each step.
-/

abbrev FsPath := String

/-- Value of one decimal digit character, as used by the Rust `u64` parser. -/
def digitVal (c : Char) : Nat := c.toNat - 48

/-- Numeric value of a run of decimal digit characters (most significant first). -/
def digitsToNat (ds : List Char) : Nat := ds.foldl (fun a c => a * 10 + digitVal c) 0

/-- Rust `str::parse::<u64>` restricted to a nonempty run of decimal digits:
it succeeds exactly when the value fits in 64 bits, leading zeros allowed. -/
def parseU64 (ds : List Char) : Option Nat :=
  if digitsToNat ds < 2 ^ 64 then some (digitsToNat ds) else none

/-- Match of the regex `part(\d+).rar$` (from `RE_PART_FILE` in main.rs)
anchored at the head of `s`.  Because the pattern ends with `$`, a match
starting here must cover the whole suffix: `part`, then a nonempty digit
run (capture group 1), then one arbitrary non-newline character (the dot in
the pattern is unescaped), then the literal `rar` ending the string.  The
digit run's length is forced to `rest.length - 4` by the anchor. -/
def tryHere : List Char → Option (List Char)
  | 'p' :: 'a' :: 'r' :: 't' :: rest =>
    if 5 ≤ rest.length && (rest.take (rest.length - 4)).all Char.isDigit
        && ((rest.drop (rest.length - 4)).headD ' ' != '\n')
        && (rest.drop (rest.length - 3) == ['r', 'a', 'r'])
    then some (rest.take (rest.length - 4)) else none
  | _ => none

/-- `RE_PART_FILE.captures`: leftmost match of `part(\d+).rar$`, returning
capture group 1 (the digit run) when the regex matches. -/
def reCaptures : List Char → Option (List Char)
  | [] => none
  | c :: rest =>
    match tryHere (c :: rest) with
    | some d => some d
    | none => reCaptures rest

/-- Rust `str::ends_with(".rar")` on a character list. -/
def endsWithRar (s : List Char) : Bool :=
  s.drop (s.length - 4) == ['.', 'r', 'a', 'r']

/-- `Path::file_name`: the component after the last `/` of the path. -/
def pathFileName (p : List Char) : List Char :=
  p.foldl (fun acc c => if c == '/' then [] else acc ++ [c]) []

/-- Core of `is_root_rar_file` on a file name: if `RE_PART_FILE` matches,
parse capture group 1 as `u64` (`none` models the `unwrap` panic on
overflow) and compare with 1; otherwise test the `.rar` suffix. -/
def is_root_rar_name (name : List Char) : Option Bool :=
  match reCaptures name with
  | some d =>
    match parseU64 d with
    | some v => some (v == 1)
    | none => none
  | none => some (endsWithRar name)

/-- `is_root_rar_file` from main.rs: extract the file name of the path and
classify it.  `none` models a panic. -/
def is_root_rar_file (p : FsPath) : Option Bool :=
  is_root_rar_name (pathFileName p.toList)

/-- Modelled from the spec: anchored match of the classifier pattern as the
spec words it, `part<digits>.rar` with a literal dot before the `rar`
suffix (spec 4.1: digits immediately preceding the literal suffix). -/
def specTryHere : List Char → Option (List Char)
  | 'p' :: 'a' :: 'r' :: 't' :: rest =>
    if 5 ≤ rest.length && (rest.take (rest.length - 4)).all Char.isDigit
        && (rest.drop (rest.length - 4) == ['.', 'r', 'a', 'r'])
    then some (rest.take (rest.length - 4)) else none
  | _ => none

/-- Modelled from the spec: leftmost occurrence of the literal
`part<digits>.rar` suffix pattern. -/
def specCaptures : List Char → Option (List Char)
  | [] => none
  | c :: rest =>
    match specTryHere (c :: rest) with
    | some d => some d
    | none => specCaptures rest

/-- Modelled from the spec: `is_root_archive` as the spec states it — a
name matching literal `part<digits>.rar` is a root archive iff the digits
parse to exactly 1; otherwise the name is a root archive iff it ends with
the literal `.rar`. -/
def spec_is_root_archive (p : FsPath) : Bool :=
  match specCaptures (pathFileName p.toList) with
  | some d => digitsToNat d == 1
  | none => endsWithRar (pathFileName p.toList)

/-- Result of `fs::metadata` / `Path::metadata` on one path: a regular
file's byte size and modification time (seconds), a not-found error, or
any other I/O error. -/
inductive StatResult
  | found (size : Nat) (mtime : Nat)
  | notFound
  | ioError
deriving DecidableEq

/-- One entry of an archive's manifest, from `unrar::FileHeader`:
archive-internal relative path, uncompressed size, and whether the entry
is a file (as opposed to a directory entry). -/
structure ArchiveEntry where
  filename : FsPath
  unpacked_size : Nat
  is_file : Bool
deriving DecidableEq

/-- Read-only oracle for every external interaction of one run: the wall
clock, file metadata, the unrar listing (`none` models an open/listing
error), the parts glob resolution (`none` models a glob error), and the
success of each fallible mutation primitive. -/
structure Env where
  now : Nat
  stat : FsPath → StatResult
  openArchive : FsPath → Option (List ArchiveEntry)
  listParts : FsPath → Option (List FsPath)
  openWriteOk : FsPath → Bool
  setModifiedOk : FsPath → Bool
  removeOk : FsPath → Bool
  extractOk : FsPath → Bool

/-- Filesystem mutations the program performs, recorded as a trace:
`extract` = `Archive::extract_into`, `setMtime` = `File::set_modified`,
`removeFile` = `fs::remove_file`.  Only successful mutations are recorded. -/
inductive Effect
  | extract (archive : FsPath) (dest : FsPath)
  | setMtime (p : FsPath) (t : Nat)
  | removeFile (p : FsPath)
deriving DecidableEq

/-- Outcome of one processing step: normal return, an `anyhow` error
propagated with `?`, or a panic. -/
inductive PStatus
  | ok
  | err
  | panicked
deriving DecidableEq

/-- Result of `process_entry`: the queue after the run (nested pushes
included, also before an error), the effect trace, and the outcome. -/
structure EntryOut where
  queue : List FsPath
  effects : List Effect
  status : PStatus
deriving DecidableEq

/-- The mutable state of `UnarchiveQueue`. -/
structure QState where
  dry_run : Bool
  remove_after : Option Nat
  queue : List FsPath
deriving DecidableEq

/-- `PathBuf::join` for the relative paths this program builds. -/
def joinPath (dir name : FsPath) : FsPath := dir ++ "/" ++ name

/-- `Path::parent`: everything before the last `/`, empty when there is none. -/
def parentPath (p : FsPath) : FsPath :=
  String.mk ((((p.toList.reverse).dropWhile (fun c => c != '/')).drop 1).reverse)

/-- `SystemTime::elapsed().unwrap_or(0)`: the age of a timestamp, zero when
the timestamp lies in the future of the clock. -/
def elapsedSince (now mtime : Nat) : Nat := if mtime ≤ now then now - mtime else 0

/-- `UnarchiveQueue::should_remove`: stat the path (any failure is a
propagated error), then compare the elapsed age with the threshold. -/
def should_remove (env : Env) (p : FsPath) (remove_after : Nat) : Except Unit Bool :=
  match env.stat p with
  | .found _ mtime => .ok (decide (elapsedSince env.now mtime > remove_after))
  | _ => .error ()

/-- `Archive::is_already_extracted`: walk the manifest; a missing
destination file or a size mismatch returns `false` at once, a non-NotFound
metadata error propagates, and reaching the end returns `true`. -/
def is_already_extracted (env : Env) (headers : List ArchiveEntry) (dest : FsPath) : Except Unit Bool :=
  match headers with
  | [] => .ok true
  | h :: t =>
    match env.stat (joinPath dest h.filename) with
    | .found sz _ => if sz ≠ h.unpacked_size then .ok false else is_already_extracted env t dest
    | .notFound => .ok false
    | .ioError => .error ()

/-- The nested-archive loop of `process_entry` (lines 98-120 of main.rs):
for every header classified as a root archive, push its destination path on
the queue, then open it for writing and set its mtime to the outer
archive's pre-processing mtime `mt`.  Neither the open nor the
`set_modified` call is guarded by the dry-run flag in the source.  A
classifier panic or a failed open/set propagates; the push already done is
kept. -/
def nestedLoop (env : Env) (dest : FsPath) (mt : Nat) : List ArchiveEntry → List FsPath → List Effect → EntryOut
  | [], q, effs => ⟨q, effs, .ok⟩
  | h :: t, q, effs =>
    match is_root_rar_file h.filename with
    | none => ⟨q, effs, .panicked⟩
    | some false => nestedLoop env dest mt t q effs
    | some true =>
      if env.openWriteOk (joinPath dest h.filename) then
        if env.setModifiedOk (joinPath dest h.filename) then
          nestedLoop env dest mt t (q ++ [joinPath dest h.filename])
            (effs ++ [Effect.setMtime (joinPath dest h.filename) mt])
        else ⟨q ++ [joinPath dest h.filename], effs, .err⟩
      else ⟨q ++ [joinPath dest h.filename], effs, .err⟩

/-- The removal loop shared by the retention pass of `process_entry`
(lines 125-132) and by `find_cruft`'s `remove_pattern` (lines 148-156):
for each candidate, `should_remove` (errors propagate), then, outside dry
run, `fs::remove_file` whose failure propagates and aborts the loop. -/
def removeLoop (env : Env) (dry : Bool) (remove_after : Nat) : List FsPath → List Effect → List Effect × PStatus
  | [], effs => (effs, .ok)
  | p :: t, effs =>
    match should_remove env p remove_after with
    | .error _ => (effs, .err)
    | .ok false => removeLoop env dry remove_after t effs
    | .ok true =>
      if dry then removeLoop env dry remove_after t effs
      else if env.removeOk p then removeLoop env dry remove_after t (effs ++ [Effect.removeFile p])
      else (effs, .err)

/-- `UnarchiveQueue::process_entry`: stat the entry (capturing its mtime
before any other work), open the archive for listing, resolve the
destination to the parent directory, run the completeness check, extract
when needed and not in dry run, run the nested-archive loop, and finally
the retention pass when a policy is configured. -/
def process_entry (env : Env) (dry : Bool) (remove_after : Option Nat) (q0 : List FsPath) (entry : FsPath) : EntryOut :=
  match env.stat entry with
  | .found _ mt =>
    match env.openArchive entry with
    | none => ⟨q0, [], .err⟩
    | some headers =>
      let dest := parentPath entry
      match is_already_extracted env headers dest with
      | .error _ => ⟨q0, [], .err⟩
      | .ok already =>
        let ext : Option (List Effect) :=
          if already then some []
          else if dry then some []
          else if env.extractOk entry then some [Effect.extract entry dest]
          else none
        match ext with
        | none => ⟨q0, [], .err⟩
        | some effs0 =>
          let r := nestedLoop env dest mt headers q0 effs0
          match r.status with
          | .ok =>
            match remove_after with
            | none => r
            | some ra =>
              match env.listParts entry with
              | none => ⟨r.queue, r.effects, .err⟩
              | some parts =>
                let pr := removeLoop env dry ra parts r.effects
                ⟨r.queue, pr.1, pr.2⟩
          | _ => r
  | _ => ⟨q0, [], .err⟩

/-- `UnarchiveQueue::process_next`: pop the queue front; an empty queue
returns `Ok(false)`, otherwise the entry is processed, any error is only
logged, and `Ok(true)` is returned.  The `Option` wrapper models a panic
escaping the call; the `Except` is the Rust `anyhow::Result<bool>`, which
this function only ever builds with `Ok`. -/
def process_next (env : Env) (st : QState) : QState × List Effect × Option (Except Unit Bool) :=
  match st.queue with
  | [] => (st, [], some (.ok false))
  | e :: rest =>
    let r := process_entry env st.dry_run st.remove_after rest e
    match r.status with
    | .panicked => (⟨st.dry_run, st.remove_after, r.queue⟩, r.effects, none)
    | _ => (⟨st.dry_run, st.remove_after, r.queue⟩, r.effects, some (.ok true))

/-- `UnarchiveQueue::find_cruft`: run the removal loop on the files matched
by `**/*.r??`, and only if that pass returned without error, on the files
matched by `**/*.sfv`; the first error aborts the whole sweep. -/
def find_cruft (env : Env) (dry : Bool) (remove_after : Nat) (rFiles sfvFiles : List FsPath) : List Effect × PStatus :=
  let p1 := removeLoop env dry remove_after rFiles []
  match p1.2 with
  | .ok => removeLoop env dry remove_after sfvFiles p1.1
  | s => (p1.1, s)

/-- Modelled from the spec: the effect of the external decompression
engine's `extract_into` (spec 4.2, not part of this repository) on the
filesystem oracle — every file entry of the manifest exists afterwards at
`dest/relative_path` with exactly its uncompressed size; directory entries
are skipped; the mtimes of the written files are arbitrary (`newMt`). -/
def applyExtract (env : Env) (dest : FsPath) (headers : List ArchiveEntry) (newMt : Nat) : Env :=
  ⟨env.now,
   fun p =>
     match headers.find? (fun h => h.is_file && (p == joinPath dest h.filename)) with
     | some h => .found h.unpacked_size newMt
     | none => env.stat p,
   env.openArchive, env.listParts, env.openWriteOk, env.setModifiedOk, env.removeOk, env.extractOk⟩

/-- A manifest entry whose destination file exists with the exact
uncompressed size. -/
def entryMatches (env : Env) (dest : FsPath) (h : ArchiveEntry) : Bool :=
  match env.stat (joinPath dest h.filename) with
  | .found sz _ => sz == h.unpacked_size
  | _ => false

/-- A manifest entry whose destination file is missing or has a
mismatching size (a non-NotFound stat error is neither). -/
def entryBad (env : Env) (dest : FsPath) (h : ArchiveEntry) : Bool :=
  match env.stat (joinPath dest h.filename) with
  | .found sz _ => sz != h.unpacked_size
  | .notFound => true
  | .ioError => false

/-- The decision of the retention pass for one candidate, as a Boolean. -/
def wantsRemoval (env : Env) (remove_after : Nat) (p : FsPath) : Bool :=
  match env.stat p with
  | .found _ mt => decide (elapsedSince env.now mt > remove_after)
  | _ => false

/-- Recognizer for `setMtime` effects. -/
def isSetMtime : Effect → Bool
  | .setMtime _ _ => true
  | _ => false

/-- Boolean root-archive classification of a manifest entry, as used by the
nested-archive loop. -/
def isNestedRoot (h : ArchiveEntry) : Bool :=
  is_root_rar_file h.filename == some true

/-- Concrete oracle for the dry-run scenario of C1: directory d holds
show.rar (mtime 7) whose manifest lists the nested root archive bonus.rar,
already present at d/bonus.rar with a matching size; extraction would fail
if it were ever attempted. -/
def envC1 : Env :=
  ⟨100,
   fun p => if p == "d/show.rar" then .found 500 7
     else if p == "d/bonus.rar" then .found 100 42
     else .notFound,
   fun p => if p == "d/show.rar" then some [⟨"bonus.rar", 100, true⟩] else none,
   fun _ => some [],
   fun _ => true, fun _ => true, fun _ => true, fun _ => false⟩

/-- Concrete oracle for the C3 counterexample: two stale candidates, the
removal of the first one fails. -/
def envC3 : Env :=
  ⟨100,
   fun p => if p == "p1" || p == "p2" then .found 0 0 else .notFound,
   fun _ => none, fun _ => none,
   fun _ => true, fun _ => true, fun p => p != "p1", fun _ => true⟩

/-- Concrete oracle for the C3 witness: three stale candidates, the removal
of the middle one fails. -/
def envC3W : Env :=
  ⟨100,
   fun p => if p == "a" || p == "b" || p == "c" then .found 0 0 else .notFound,
   fun _ => none, fun _ => none,
   fun _ => true, fun _ => true, fun p => p != "b", fun _ => true⟩

/-- Concrete oracle for the C4 witness: d/a.bin present with size 5,
d/b.bin missing, everything else an I/O error. -/
def envC4 : Env :=
  ⟨0,
   fun p => if p == "d/a.bin" then .found 5 0
     else if p == "d/b.bin" then .notFound
     else .ioError,
   fun _ => none, fun _ => none,
   fun _ => true, fun _ => true, fun _ => true, fun _ => true⟩

/-- Concrete oracle for the C5 witness: every metadata read fails, so the
one queued entry errors out immediately. -/
def envC5 : Env :=
  ⟨0, fun _ => .ioError, fun _ => none, fun _ => none,
   fun _ => true, fun _ => true, fun _ => true, fun _ => true⟩

/-- Concrete oracle for the C6 and C8 witnesses: like envC1 but with
extraction able to succeed. -/
def envC6 : Env :=
  ⟨100,
   fun p => if p == "d/show.rar" then .found 500 7
     else if p == "d/bonus.rar" then .found 100 42
     else .notFound,
   fun p => if p == "d/show.rar" then some [⟨"bonus.rar", 100, true⟩] else none,
   fun _ => some [],
   fun _ => true, fun _ => true, fun _ => true, fun _ => true⟩

/-- Concrete oracle for the C7 witness: d/show.rar (age 10) is already
extracted (d/file.bin, size 5); its physical parts are d/show.rar and the
stale d/show.r00 (age 80). -/
def envC7 : Env :=
  ⟨100,
   fun p => if p == "d/show.rar" then .found 500 90
     else if p == "d/file.bin" then .found 5 50
     else if p == "d/show.r00" then .found 3 20
     else .notFound,
   fun p => if p == "d/show.rar" then some [⟨"file.bin", 5, true⟩] else none,
   fun p => if p == "d/show.rar" then some ["d/show.rar", "d/show.r00"] else none,
   fun _ => true, fun _ => true, fun _ => true, fun _ => true⟩

/-- Concrete oracle for the C9 witness: d/a.rar with a single one-entry
manifest, nothing extracted yet. -/
def envC9 : Env :=
  ⟨0,
   fun p => if p == "d/a.rar" then .found 10 2 else .notFound,
   fun p => if p == "d/a.rar" then some [⟨"x.bin", 5, true⟩] else none,
   fun _ => none,
   fun _ => true, fun _ => true, fun _ => true, fun _ => true⟩

/-- Concrete oracle refuting C9 as stated: the filesystem before the
second run of d/a.rar, whose manifest holds the directory header sub
(uncompressed size 0) and the file header sub/x.bin.  The first run's
extraction wrote sub/x.bin (applyExtract below) and thereby created the
directory d/sub, whose on-disk metadata length is 4096 and so can never
equal the header's size 0. -/
def envC9base : Env :=
  ⟨0,
   fun p => if p == "d/a.rar" then .found 10 2
     else if p == "d/sub" then .found 4096 7
     else .notFound,
   fun p => if p == "d/a.rar" then some [⟨"sub", 0, false⟩, ⟨"sub/x.bin", 5, true⟩] else none,
   fun _ => none,
   fun _ => true, fun _ => true, fun _ => true, fun _ => true⟩

/-- Concrete oracle for the C10 witness: file f has a modification time in
the future of the clock. -/
def envC10 : Env :=
  ⟨10, fun p => if p == "f" then .found 1 999 else .notFound,
   fun _ => none, fun _ => none,
   fun _ => true, fun _ => true, fun _ => true, fun _ => true⟩

deriving instance DecidableEq for Except

theorem is_already_ok_true_iff (env : Env) (dest : FsPath) (hs : List ArchiveEntry) :
    is_already_extracted env hs dest = .ok true ↔ ∀ h ∈ hs, entryMatches env dest h = true := by
  induction hs with
  | nil => simp [is_already_extracted]
  | cons h t ih =>
    simp only [is_already_extracted, List.mem_cons]
    cases hst : env.stat (joinPath dest h.filename) with
    | found sz m =>
      by_cases hsz : sz = h.unpacked_size
      · subst hsz
        simp [entryMatches, hst, ih]
      · simp [entryMatches, hst, hsz]
    | notFound => simp [entryMatches, hst]
    | ioError => simp [entryMatches, hst]

theorem is_already_false_of_bad (env : Env) (dest : FsPath) (pre : List ArchiveEntry)
    (h : ArchiveEntry) (post : List ArchiveEntry)
    (hpre : ∀ h' ∈ pre, entryMatches env dest h' = true)
    (hbad : entryBad env dest h = true) :
    is_already_extracted env (pre ++ h :: post) dest = .ok false := by
  induction pre with
  | nil =>
    simp only [List.nil_append, is_already_extracted]
    unfold entryBad at hbad
    cases hst : env.stat (joinPath dest h.filename) with
    | found sz m =>
      rw [hst] at hbad
      simp only [bne_iff_ne, ne_eq] at hbad
      simp [hbad]
    | notFound => simp
    | ioError => rw [hst] at hbad; simp at hbad
  | cons p t ih =>
    have hp : entryMatches env dest p = true := hpre p (List.mem_cons_self p t)
    have ht : ∀ h' ∈ t, entryMatches env dest h' = true :=
      fun h' hm => hpre h' (List.mem_cons_of_mem p hm)
    simp only [List.cons_append, is_already_extracted]
    unfold entryMatches at hp
    cases hst : env.stat (joinPath dest p.filename) with
    | found sz m =>
      rw [hst] at hp
      simp only [beq_iff_eq] at hp
      simp [hp, ih ht]
    | notFound => exact absurd hp (by simp [hst])
    | ioError => exact absurd hp (by simp [hst])

theorem is_already_error_of_ioError (env : Env) (dest : FsPath) (pre : List ArchiveEntry)
    (h : ArchiveEntry) (post : List ArchiveEntry)
    (hpre : ∀ h' ∈ pre, entryMatches env dest h' = true)
    (herr : env.stat (joinPath dest h.filename) = .ioError) :
    is_already_extracted env (pre ++ h :: post) dest = .error () := by
  induction pre with
  | nil => simp [is_already_extracted, herr]
  | cons p t ih =>
    have hp : entryMatches env dest p = true := hpre p (List.mem_cons_self p t)
    have ht : ∀ h' ∈ t, entryMatches env dest h' = true :=
      fun h' hm => hpre h' (List.mem_cons_of_mem p hm)
    simp only [List.cons_append, is_already_extracted]
    unfold entryMatches at hp
    cases hst : env.stat (joinPath dest p.filename) with
    | found sz m =>
      rw [hst] at hp
      simp only [beq_iff_eq] at hp
      simp [hp, ih ht]
    | notFound => exact absurd hp (by simp [hst])
    | ioError => exact absurd hp (by simp [hst])

theorem removeLoop_ok_of_clean (env : Env) (ra : Nat) (l : List FsPath)
    (hm : ∀ p ∈ l, ∃ s m, env.stat p = .found s m)
    (hr : ∀ p ∈ l, env.removeOk p = true) :
    ∀ effs, removeLoop env false ra l effs
      = (effs ++ (l.filter (wantsRemoval env ra)).map Effect.removeFile, .ok) := by
  induction l with
  | nil => intro effs; simp [removeLoop]
  | cons p t ih =>
    intro effs
    obtain ⟨s, m, hst⟩ := hm p (List.mem_cons_self p t)
    have hrp := hr p (List.mem_cons_self p t)
    have hmt : ∀ x ∈ t, ∃ s m, env.stat x = .found s m :=
      fun x hx => hm x (List.mem_cons_of_mem p hx)
    have hrt : ∀ x ∈ t, env.removeOk x = true :=
      fun x hx => hr x (List.mem_cons_of_mem p hx)
    by_cases hw : elapsedSince env.now m > ra
    · simp [removeLoop, should_remove, hst, hw, hrp, ih hmt hrt, wantsRemoval]
    · simp [removeLoop, should_remove, hst, hw, ih hmt hrt, wantsRemoval]

theorem removeLoop_effects_shape (env : Env) (dry : Bool) (ra : Nat) (l : List FsPath) :
    ∀ effs, ∃ tail, (removeLoop env dry ra l effs).1 = effs ++ tail
      ∧ ∀ e ∈ tail, ∃ p, e = Effect.removeFile p := by
  induction l with
  | nil => exact fun effs => ⟨[], by simp [removeLoop], by simp⟩
  | cons p t ih =>
    intro effs
    rcases hsr : should_remove env p ra with u | b
    · exact ⟨[], by simp [removeLoop, hsr], by simp⟩
    · cases b with
      | false => simpa [removeLoop, hsr] using ih effs
      | true =>
        cases hd : dry with
        | true => simpa [removeLoop, hsr, hd] using ih effs
        | false =>
          cases hro : env.removeOk p with
          | false => exact ⟨[], by simp [removeLoop, hsr, hd, hro], by simp⟩
          | true =>
            obtain ⟨tail, h1, h2⟩ := ih (effs ++ [Effect.removeFile p])
            refine ⟨Effect.removeFile p :: tail, ?_, ?_⟩
            · rw [hd] at h1
              simp only [removeLoop, hsr, hd, hro]
              simp [h1]
            · intro e he
              rcases List.mem_cons.mp he with rfl | he'
              · exact ⟨p, rfl⟩
              · exact h2 e he'

theorem nestedLoop_ok_shape (env : Env) (dest : FsPath) (mt : Nat) (hs : List ArchiveEntry) :
    ∀ q effs, (nestedLoop env dest mt hs q effs).status = .ok →
      (nestedLoop env dest mt hs q effs).queue
          = q ++ (hs.filter isNestedRoot).map (fun h => joinPath dest h.filename)
        ∧ (nestedLoop env dest mt hs q effs).effects
          = effs ++ (hs.filter isNestedRoot).map
              (fun h => Effect.setMtime (joinPath dest h.filename) mt) := by
  induction hs with
  | nil => intro q effs _; simp [nestedLoop]
  | cons h t ih =>
    intro q effs hok
    rcases hir : is_root_rar_file h.filename with _ | b
    · exact absurd hok (by simp [nestedLoop, hir])
    · cases b with
      | false =>
        have := ih q effs (by simpa [nestedLoop, hir] using hok)
        simpa [nestedLoop, hir, isNestedRoot] using this
      | true =>
        cases hw : env.openWriteOk (joinPath dest h.filename) with
        | false => exact absurd hok (by simp [nestedLoop, hir, hw])
        | true =>
          cases hsm : env.setModifiedOk (joinPath dest h.filename) with
          | false => exact absurd hok (by simp [nestedLoop, hir, hw, hsm])
          | true =>
            have hok' : (nestedLoop env dest mt t (q ++ [joinPath dest h.filename])
                (effs ++ [Effect.setMtime (joinPath dest h.filename) mt])).status = .ok := by
              simpa [nestedLoop, hir, hw, hsm] using hok
            have := ih (q ++ [joinPath dest h.filename])
              (effs ++ [Effect.setMtime (joinPath dest h.filename) mt]) hok'
            simpa [nestedLoop, hir, hw, hsm, isNestedRoot] using this

theorem nestedLoop_effects_extend (env : Env) (dest : FsPath) (mt : Nat) (hs : List ArchiveEntry) :
    ∀ q effs, ∃ tail, (nestedLoop env dest mt hs q effs).effects = effs ++ tail
      ∧ ∀ e ∈ tail, isSetMtime e = true := by
  induction hs with
  | nil => exact fun q effs => ⟨[], by simp [nestedLoop], by simp⟩
  | cons h t ih =>
    intro q effs
    rcases hir : is_root_rar_file h.filename with _ | b
    · exact ⟨[], by simp [nestedLoop, hir], by simp⟩
    · cases b with
      | false => simpa [nestedLoop, hir] using ih q effs
      | true =>
        cases hw : env.openWriteOk (joinPath dest h.filename) with
        | false => exact ⟨[], by simp [nestedLoop, hir, hw], by simp⟩
        | true =>
          cases hsm : env.setModifiedOk (joinPath dest h.filename) with
          | false => exact ⟨[], by simp [nestedLoop, hir, hw, hsm], by simp⟩
          | true =>
            obtain ⟨tail, h1, h2⟩ := ih (q ++ [joinPath dest h.filename])
              (effs ++ [Effect.setMtime (joinPath dest h.filename) mt])
            refine ⟨Effect.setMtime (joinPath dest h.filename) mt :: tail, ?_, ?_⟩
            · simp only [nestedLoop, hir, hw, hsm]
              simp [h1]
            · intro e he
              rcases List.mem_cons.mp he with rfl | he'
              · rfl
              · exact h2 e he'

theorem process_entry_ok_decomp (env : Env) (dry : Bool) (ra : Option Nat) (q0 : List FsPath)
    (entry : FsPath) (sz mt : Nat) (hs : List ArchiveEntry)
    (hstat : env.stat entry = .found sz mt)
    (hopen : env.openArchive entry = some hs)
    (hok : (process_entry env dry ra q0 entry).status = .ok) :
    ∃ already effs0,
      is_already_extracted env hs (parentPath entry) = .ok already
      ∧ (already = true → effs0 = [])
      ∧ (∀ e ∈ effs0, ∃ a d, e = Effect.extract a d)
      ∧ (nestedLoop env (parentPath entry) mt hs q0 effs0).status = .ok
      ∧ (process_entry env dry ra q0 entry).queue
          = (nestedLoop env (parentPath entry) mt hs q0 effs0).queue
      ∧ ((ra = none ∧ (process_entry env dry ra q0 entry).effects
            = (nestedLoop env (parentPath entry) mt hs q0 effs0).effects)
        ∨ (∃ ra2 parts, ra = some ra2 ∧ env.listParts entry = some parts
            ∧ (removeLoop env dry ra2 parts
                (nestedLoop env (parentPath entry) mt hs q0 effs0).effects).2 = .ok
            ∧ (process_entry env dry ra q0 entry).effects
              = (removeLoop env dry ra2 parts
                  (nestedLoop env (parentPath entry) mt hs q0 effs0).effects).1)) := by
  simp only [process_entry, hstat, hopen] at hok ⊢
  rcases hae : is_already_extracted env hs (parentPath entry) with u | already
  · simp [hae] at hok
  · simp only [hae] at hok ⊢
    set ext := (if already = true then some [] else if dry = true then some []
      else if env.extractOk entry = true then some [Effect.extract entry (parentPath entry)]
      else (none : Option (List Effect))) with hext
    have heffs : ∀ effs0 : List Effect, ext = some effs0 →
        (already = true → effs0 = []) ∧ (∀ e ∈ effs0, ∃ a d, e = Effect.extract a d) := by
      intro effs0 h
      rw [hext] at h
      by_cases ha : already = true
      · rw [if_pos ha] at h
        refine ⟨fun _ => (Option.some_injective _ h).symm, ?_⟩
        rw [← Option.some_injective _ h]
        intro e he
        simp at he
      · rw [if_neg ha] at h
        by_cases hdr : dry = true
        · rw [if_pos hdr] at h
          refine ⟨fun hc => absurd hc ha, ?_⟩
          rw [← Option.some_injective _ h]
          intro e he
          simp at he
        · rw [if_neg hdr] at h
          by_cases hxo : env.extractOk entry = true
          · rw [if_pos hxo] at h
            refine ⟨fun hc => absurd hc ha, ?_⟩
            rw [← Option.some_injective _ h]
            intro e he
            simp at he
            exact ⟨entry, parentPath entry, he⟩
          · rw [if_neg hxo] at h
            exact absurd h (by simp)
    rcases hex : ext with _ | effs0
    · rw [hex] at hok
      simp at hok
    · rw [hex] at hok
      simp only at hok ⊢
      obtain ⟨hal, hexs⟩ := heffs effs0 hex
      rcases hrs : (nestedLoop env (parentPath entry) mt hs q0 effs0).status with _ | _ | _
      · rw [hrs] at hok
        simp only at hok ⊢
        rcases ra with _ | ra2
        · simp only at hok ⊢
          exact ⟨already, effs0, rfl, hal, hexs, hrs, by simp, Or.inl ⟨by simp, by simp⟩⟩
        · simp only at hok ⊢
          rcases hlp : env.listParts entry with _ | parts
          · rw [hlp] at hok
            simp at hok
          · rw [hlp] at hok
            simp only at hok ⊢
            exact ⟨already, effs0, rfl, hal, hexs, hrs, by simp,
              Or.inr ⟨ra2, parts, by simp, by simp, hok, by simp⟩⟩
      · rw [hrs] at hok
        simp only at hok
        exact absurd (hrs.symm.trans hok) (by simp)
      · rw [hrs] at hok
        simp only at hok
        exact absurd (hrs.symm.trans hok) (by simp)

/-- C1 fails on the code: with dry_run set, processing d/show.rar — whose
manifest lists the already-extracted nested root archive bonus.rar — still
performs the set-modified-time mutation on d/bonus.rar, because the
mtime-reconciliation block of process_entry has no dry-run guard, while
extraction and removal are indeed suppressed (the trace holds exactly one
setMtime mutation and nothing else). -/
theorem c1_dry_run_still_sets_mtime :
    process_entry envC1 true none [] "d/show.rar"
      = ⟨["d/bonus.rar"], [Effect.setMtime "d/bonus.rar" 7], PStatus.ok⟩ := by
  decide

/-- C2 fails on the code: the file name part1xrar is classified as a root
archive by is_root_rar_file, while the specified classifier (literal
part<digits>.rar pattern, otherwise the literal suffix .rar) rejects it;
the regex RE_PART_FILE leaves the dot before rar unescaped, so any
character may stand between the digit run and the trailing rar. -/
theorem c2_classifier_dot_unescaped :
    is_root_rar_file "part1xrar" = some true
      ∧ spec_is_root_archive "part1xrar" = false := by
  exact ⟨by decide, by decide⟩

/-- C3 counterexample: in a retention pass over the two stale candidates p1
and p2 where the removal of p1 fails, the pass aborts with an error and p2
is neither evaluated nor removed, although should_remove would have
selected it — so one failed removal does block the remaining candidates. -/
theorem c3_failed_removal_blocks_rest :
    removeLoop envC3 false 10 ["p1", "p2"] [] = ([], PStatus.err)
      ∧ should_remove envC3 "p2" 10 = .ok true := by
  exact ⟨by decide, by decide⟩

/-- C3 amended: a failed removal propagates as an error that aborts the
rest of the pass — after a clean prefix, a candidate that should_remove
selects but whose removal fails makes the loop return the error with the
effects of the prefix only, independently of the candidates behind it; and
in find_cruft an erroring first pattern pass skips the .sfv pass entirely. -/
theorem c3_failed_removal_aborts_pass :
    (∀ (env : Env) (ra : Nat) (l1 : List FsPath), ∀ (l2 : List FsPath) (p : FsPath)
        (effs effs1 : List Effect),
      removeLoop env false ra l1 effs = (effs1, PStatus.ok) →
      should_remove env p ra = .ok true →
      env.removeOk p = false →
      removeLoop env false ra (l1 ++ p :: l2) effs = (effs1, PStatus.err))
    ∧ (∀ (env : Env) (dry : Bool) (ra : Nat) (rf sfv : List FsPath) (effs1 : List Effect),
      removeLoop env dry ra rf [] = (effs1, PStatus.err) →
      find_cruft env dry ra rf sfv = (effs1, PStatus.err)) := by
  constructor
  · intro env ra l1
    induction l1 with
    | nil =>
      intro l2 p effs effs1 h1 h2 h3
      have he : effs = effs1 := by simpa [removeLoop] using h1
      subst he
      simp [removeLoop, h2, h3]
    | cons q t ih =>
      intro l2 p effs effs1 h1 h2 h3
      rcases hsr : should_remove env q ra with u | b
      · rw [removeLoop, hsr] at h1
        simp at h1
      · cases b with
        | false =>
          rw [removeLoop, hsr] at h1
          rw [List.cons_append, removeLoop, hsr]
          exact ih l2 p effs effs1 h1 h2 h3
        | true =>
          rcases hro : env.removeOk q with _ | _
          · rw [removeLoop, hsr] at h1
            simp [hro] at h1
          · rw [removeLoop, hsr] at h1
            simp only [if_neg Bool.false_ne_true, hro, if_pos rfl] at h1
            rw [List.cons_append, removeLoop, hsr]
            simp only [if_neg Bool.false_ne_true, hro, if_pos rfl]
            exact ih l2 p (effs ++ [Effect.removeFile q]) effs1 h1 h2 h3
  · intro env dry ra rf sfv effs1 h
    simp [find_cruft, h]

/-- C3 amended witness: over the candidates a, b, c — all stale — where the
removal of b fails, the pass removes a, aborts at b with the error, and
never touches c. -/
theorem c3_failed_removal_aborts_pass_witness :
    removeLoop envC3W false 10 ["a", "b", "c"] [] = ([Effect.removeFile "a"], PStatus.err) :=
  c3_failed_removal_aborts_pass.1 envC3W 10 ["a"] ["c"] "b" [] [Effect.removeFile "a"]
    (by decide) (by decide) (by decide)

/-- C4: the completeness check returns Ok(true) iff every manifest entry
exists at dest with exactly its uncompressed size; when the entries of some
prefix all match and the next entry is missing or size-mismatched, the
check returns Ok(false) whatever the entries after it are; and when the
entries of some prefix all match and the metadata read of the next entry
fails for a reason other than not-found, the check propagates the error. -/
theorem c4_completeness_check_spec (env : Env) (dest : FsPath) (hs : List ArchiveEntry) :
    (is_already_extracted env hs dest = .ok true ↔ ∀ h ∈ hs, entryMatches env dest h = true)
    ∧ (∀ pre h post, hs = pre ++ h :: post →
        (∀ h2 ∈ pre, entryMatches env dest h2 = true) → entryBad env dest h = true →
        is_already_extracted env hs dest = .ok false)
    ∧ (∀ pre h post, hs = pre ++ h :: post →
        (∀ h2 ∈ pre, entryMatches env dest h2 = true) →
        env.stat (joinPath dest h.filename) = .ioError →
        is_already_extracted env hs dest = .error ()) := by
  refine ⟨is_already_ok_true_iff env dest hs, ?_, ?_⟩
  · intro pre h post hsplit hpre hbad
    rw [hsplit]
    exact is_already_false_of_bad env dest pre h post hpre hbad
  · intro pre h post hsplit hpre herr
    rw [hsplit]
    exact is_already_error_of_ioError env dest pre h post hpre herr

/-- C4 witness: with d/a.bin present at its exact size and d/b.bin missing,
the check over the two-entry manifest returns Ok(false). -/
theorem c4_completeness_check_spec_witness :
    is_already_extracted envC4 [⟨"a.bin", 5, true⟩, ⟨"b.bin", 7, true⟩] "d" = .ok false :=
  (c4_completeness_check_spec envC4 "d" [⟨"a.bin", 5, true⟩, ⟨"b.bin", 7, true⟩]).2.1
    [⟨"a.bin", 5, true⟩] ⟨"b.bin", 7, true⟩ [] rfl (by decide) (by decide)

/-- C5: process_next returns Ok(false) exactly on an empty queue and
otherwise — whenever processing the popped entry does not panic — returns
Ok(true) with the entry's queue and effect trace, regardless of whether
that entry's processing errored; the anyhow error of a bad archive is never
propagated out of process_next, so it cannot change the exit status of the
queue loop in main. -/
theorem c5_process_next_swallows_entry_errors (env : Env) (st : QState) :
    (st.queue = [] → process_next env st = (st, [], some (Except.ok false)))
    ∧ (∀ e rest, st.queue = e :: rest →
        (process_entry env st.dry_run st.remove_after rest e).status ≠ PStatus.panicked →
        process_next env st
          = (⟨st.dry_run, st.remove_after,
                (process_entry env st.dry_run st.remove_after rest e).queue⟩,
             (process_entry env st.dry_run st.remove_after rest e).effects,
             some (Except.ok true))) := by
  constructor
  · intro h
    simp [process_next, h]
  · intro e rest h hnp
    simp only [process_next, h]

/-- C5 witness: a queue holding the single entry x whose metadata read
fails still yields Ok(true), an advanced queue and no effects. -/
theorem c5_process_next_swallows_entry_errors_witness :
    process_next envC5 ⟨false, none, ["x"]⟩ = (⟨false, none, []⟩, [], some (Except.ok true)) :=
  ((c5_process_next_swallows_entry_errors envC5 ⟨false, none, ["x"]⟩).2 "x" [] rfl
    (by decide)).trans (by decide)

/-- C10: should_remove retains (returns Ok(false) for) any candidate whose
modification time lies in the future of the clock — the elapsed age
defaults to zero, which is never strictly above the threshold — and it
returns a boolean rather than an error exactly when the metadata read
succeeds. -/
theorem c10_future_mtime_retained (env : Env) (p : FsPath) (ra : Nat) :
    (∀ s m, env.stat p = .found s m → env.now < m → should_remove env p ra = .ok false)
    ∧ ((∃ b, should_remove env p ra = .ok b) ↔ ∃ s m, env.stat p = .found s m) := by
  constructor
  · intro s m hst hf
    have hnotle : ¬ (m ≤ env.now) := Nat.not_le.mpr hf
    simp [should_remove, hst, elapsedSince, hnotle]
  · constructor
    · rintro ⟨b, hb⟩
      unfold should_remove at hb
      cases hst : env.stat p with
      | found s m => exact ⟨s, m, rfl⟩
      | notFound => exact absurd hb (by simp [hst])
      | ioError => exact absurd hb (by simp [hst])
    · rintro ⟨s, m, hst⟩
      exact ⟨decide (elapsedSince env.now m > ra), by simp [should_remove, hst]⟩

/-- C10 witness: file f, modified at time 999 while the clock reads 10, is
retained. -/
theorem c10_future_mtime_retained_witness :
    should_remove envC10 "f" 5 = .ok false :=
  (c10_future_mtime_retained envC10 "f" 5).1 1 999 (by decide) (by decide)

/-- C6: when processing of a container archive succeeds, every manifest
entry classified as a root archive receives a set-modified-time effect
whose value is the container's own modification time as read by the very
first metadata call of process_entry, before the completeness check,
extraction or anything else — not the extraction time and not a timestamp
taken from inside the archive. -/
theorem c6_nested_mtime_reconciliation (env : Env) (dry : Bool) (ra : Option Nat)
    (q0 : List FsPath) (entry : FsPath) (sz mt : Nat) (hs : List ArchiveEntry)
    (h : ArchiveEntry)
    (hstat : env.stat entry = .found sz mt)
    (hopen : env.openArchive entry = some hs)
    (hmem : h ∈ hs)
    (hroot : is_root_rar_file h.filename = some true)
    (hok : (process_entry env dry ra q0 entry).status = PStatus.ok) :
    Effect.setMtime (joinPath (parentPath entry) h.filename) mt
      ∈ (process_entry env dry ra q0 entry).effects := by
  obtain ⟨already, effs0, hae, hal, hexs, hns, hq, hrest⟩ :=
    process_entry_ok_decomp env dry ra q0 entry sz mt hs hstat hopen hok
  have hshape := (nestedLoop_ok_shape env (parentPath entry) mt hs q0 effs0 hns).2
  have hmemn : Effect.setMtime (joinPath (parentPath entry) h.filename) mt
      ∈ (nestedLoop env (parentPath entry) mt hs q0 effs0).effects := by
    rw [hshape]
    apply List.mem_append_right
    apply List.mem_map.mpr
    exact ⟨h, List.mem_filter.mpr ⟨hmem, by simp [isNestedRoot, hroot]⟩, rfl⟩
  rcases hrest with ⟨h0, heq⟩ | ⟨ra2, parts, h0, h02, h03, heq⟩
  · rw [heq]
    exact hmemn
  · rw [heq]
    obtain ⟨tail, h1, h2⟩ := removeLoop_effects_shape env dry ra2 parts
      (nestedLoop env (parentPath entry) mt hs q0 effs0).effects
    rw [h1]
    exact List.mem_append_left _ hmemn

/-- C6 witness: processing d/show.rar (mtime 7) whose manifest holds the
nested root archive bonus.rar produces a set-modified-time effect on
d/bonus.rar with value 7. -/
theorem c6_nested_mtime_reconciliation_witness :
    Effect.setMtime (joinPath (parentPath "d/show.rar") "bonus.rar") 7
      ∈ (process_entry envC6 false none [] "d/show.rar").effects :=
  c6_nested_mtime_reconciliation envC6 false none [] "d/show.rar" 500 7
    [⟨"bonus.rar", 100, true⟩] ⟨"bonus.rar", 100, true⟩ rfl rfl (by decide) (by decide)
    (by decide)

/-- C8: when processing of an archive succeeds, the resulting queue is the
old queue with the destination path of every manifest entry the classifier
accepts as a root archive appended at the tail, in manifest order, each
destination being the archive's parent directory joined with the entry's
relative path; together with C5's pop-from-the-front these nested archives
are later dequeued and processed as archives of their own. -/
theorem c8_nested_enqueue_fifo (env : Env) (dry : Bool) (ra : Option Nat)
    (q0 : List FsPath) (entry : FsPath) (sz mt : Nat) (hs : List ArchiveEntry)
    (hstat : env.stat entry = .found sz mt)
    (hopen : env.openArchive entry = some hs)
    (hok : (process_entry env dry ra q0 entry).status = PStatus.ok) :
    (process_entry env dry ra q0 entry).queue
      = q0 ++ (hs.filter isNestedRoot).map (fun h => joinPath (parentPath entry) h.filename) := by
  obtain ⟨already, effs0, hae, hal, hexs, hns, hq, hrest⟩ :=
    process_entry_ok_decomp env dry ra q0 entry sz mt hs hstat hopen hok
  rw [hq]
  exact (nestedLoop_ok_shape env (parentPath entry) mt hs q0 effs0 hns).1

/-- C8 witness: processing d/show.rar with the queue holding old.rar leaves
the queue [old.rar, d/bonus.rar] — the nested archive is appended at the
tail. -/
theorem c8_nested_enqueue_fifo_witness :
    (process_entry envC6 false none ["old.rar"] "d/show.rar").queue
      = ["old.rar", "d/bonus.rar"] :=
  (c8_nested_enqueue_fifo envC6 false none ["old.rar"] "d/show.rar" 500 7
    [⟨"bonus.rar", 100, true⟩] rfl rfl (by decide)).trans (by decide)

/-- C7: in a successful processing pass with a configured retention policy,
not in dry run, over physical parts whose metadata reads and removals all
succeed, a remove-file effect for a path occurs exactly when that path is
among the archive's listed parts and its elapsed age (now minus mtime, zero
for future mtimes) is strictly greater than the threshold — parts at or
under the threshold are never removed, strictly older parts always are,
whether or not the archive needed extraction. -/
theorem c7_retention_threshold_exact (env : Env) (ra : Nat) (q0 : List FsPath)
    (entry : FsPath) (sz mt : Nat) (hs : List ArchiveEntry) (parts : List FsPath)
    (hstat : env.stat entry = .found sz mt)
    (hopen : env.openArchive entry = some hs)
    (hlp : env.listParts entry = some parts)
    (hma : ∀ p ∈ parts, ∃ s m, env.stat p = .found s m)
    (hro : ∀ p ∈ parts, env.removeOk p = true)
    (hok : (process_entry env false (some ra) q0 entry).status = PStatus.ok)
    (p : FsPath) :
    Effect.removeFile p ∈ (process_entry env false (some ra) q0 entry).effects
      ↔ p ∈ parts ∧ ∃ s m, env.stat p = .found s m ∧ elapsedSince env.now m > ra := by
  obtain ⟨already, effs0, hae, hal, hexs, hns, hq, hrest⟩ :=
    process_entry_ok_decomp env false (some ra) q0 entry sz mt hs hstat hopen hok
  rcases hrest with ⟨hco, _⟩ | ⟨ra2, parts2, hra2, hlp2, hrok, heff⟩
  · exact absurd hco (by simp)
  · have hra : ra2 = ra := by
      injection hra2 with hh
      exact hh.symm
    subst hra
    have hparts : parts2 = parts := by
      have := hlp.symm.trans hlp2
      injection this with hh
      exact hh.symm
    subst hparts
    rw [heff, removeLoop_ok_of_clean env ra2 parts2 hma hro
      ((nestedLoop env (parentPath entry) mt hs q0 effs0).effects)]
    simp only
    constructor
    · intro hmemm
      rcases List.mem_append.mp hmemm with hin | hin
      · obtain ⟨tail, hteq, hall⟩ :=
          nestedLoop_effects_extend env (parentPath entry) mt hs q0 effs0
        rw [hteq] at hin
        rcases List.mem_append.mp hin with hin2 | hin2
        · obtain ⟨a, d, habs⟩ := hexs _ hin2
          exact absurd habs (by simp)
        · have hsm := hall _ hin2
          simp [isSetMtime] at hsm
      · obtain ⟨q2, hq2, hqe⟩ := List.mem_map.mp hin
        obtain ⟨hqp, hw⟩ := List.mem_filter.mp hq2
        injection hqe with hh
        subst hh
        refine ⟨hqp, ?_⟩
        unfold wantsRemoval at hw
        cases hst : env.stat q2 with
        | found s m =>
          rw [hst] at hw
          simp only [decide_eq_true_eq] at hw
          exact ⟨s, m, rfl, hw⟩
        | notFound => exact absurd hw (by simp [hst])
        | ioError => exact absurd hw (by simp [hst])
    · rintro ⟨hp, s, m, hstp, hgt⟩
      apply List.mem_append.mpr
      right
      apply List.mem_map.mpr
      refine ⟨p, List.mem_filter.mpr ⟨hp, ?_⟩, rfl⟩
      simp [wantsRemoval, hstp, hgt]

/-- C7 witness: with threshold 10, processing d/show.rar (already
extracted) removes the part d/show.r00 aged 80. -/
theorem c7_retention_threshold_exact_witness :
    Effect.removeFile "d/show.r00"
      ∈ (process_entry envC7 false (some 10) [] "d/show.rar").effects :=
  (c7_retention_threshold_exact envC7 10 [] "d/show.rar" 500 90
    [⟨"file.bin", 5, true⟩] ["d/show.rar", "d/show.r00"] rfl rfl rfl
    (by intro p hp; fin_cases hp; exacts [⟨500, 90, rfl⟩, ⟨3, 20, rfl⟩])
    (by decide) (by decide) "d/show.r00").mpr
    ⟨by decide, 3, 20, rfl, by decide⟩

/-- C9 counterexample: the manifest of d/a.rar holds the directory header
sub (size 0) and the file header sub/x.bin.  After the first run's
extraction — which, like extract_into, writes the file entries only — the
sole file entry is present at its exact size, yet the second run's
completeness check compares the on-disk directory d/sub (length 4096)
against the header size 0 and returns Ok(false), so the second run
performs another extraction: running twice is not idempotent as claimed. -/
theorem c9_second_run_idempotent_counterexample :
    entryMatches (applyExtract envC9base "d" [⟨"sub", 0, false⟩, ⟨"sub/x.bin", 5, true⟩] 7)
        "d" ⟨"sub/x.bin", 5, true⟩ = true
    ∧ is_already_extracted
        (applyExtract envC9base "d" [⟨"sub", 0, false⟩, ⟨"sub/x.bin", 5, true⟩] 7)
        [⟨"sub", 0, false⟩, ⟨"sub/x.bin", 5, true⟩] "d" = .ok false
    ∧ Effect.extract "d/a.rar" "d"
        ∈ (process_entry (applyExtract envC9base "d" [⟨"sub", 0, false⟩, ⟨"sub/x.bin", 5, true⟩] 7)
            false none [] "d/a.rar").effects := by
  exact ⟨by decide, by decide, by decide⟩

/-- C9 amended: for an archive whose manifest consists of file entries
only (no directory headers), with pairwise distinct destination paths none
of which shadows the archive itself — after a run whose extraction
succeeded, the external engine having written every file entry at its
exact uncompressed size as modelled by applyExtract from spec 4.2 —
reprocessing the archive with no retention policy finds the completeness
check returning Ok(true), so the second run performs no extraction and
removes nothing: its effect trace holds set-modified-time effects at most,
leaving the directory contents identical.  The file-entries-only
restriction is forced by the counterexample above: a directory header is
skipped by extraction but still checked, breaking idempotence. -/
theorem c9_second_run_idempotent (env : Env) (entry : FsPath) (sz mt m : Nat)
    (hs : List ArchiveEntry) (q0 : List FsPath)
    (hstat : env.stat entry = .found sz mt)
    (hopen : env.openArchive entry = some hs)
    (hf : ∀ h ∈ hs, h.is_file = true)
    (hnd : (hs.map (fun h => joinPath (parentPath entry) h.filename)).Nodup)
    (hne : ∀ h ∈ hs, joinPath (parentPath entry) h.filename ≠ entry) :
    is_already_extracted (applyExtract env (parentPath entry) hs m) hs (parentPath entry)
        = .ok true
    ∧ ∀ e ∈ (process_entry (applyExtract env (parentPath entry) hs m) false none q0
          entry).effects,
        isSetMtime e = true := by
  have hstat2 : ∀ h ∈ hs, (applyExtract env (parentPath entry) hs m).stat
      (joinPath (parentPath entry) h.filename) = .found h.unpacked_size m := by
    intro h hmem
    show (match hs.find? (fun h2 => h2.is_file
        && (joinPath (parentPath entry) h.filename == joinPath (parentPath entry) h2.filename)) with
      | some h2 => StatResult.found h2.unpacked_size m
      | none => env.stat (joinPath (parentPath entry) h.filename)) = .found h.unpacked_size m
    rcases hfind : hs.find? (fun h2 => h2.is_file
        && (joinPath (parentPath entry) h.filename == joinPath (parentPath entry) h2.filename))
        with _ | h2
    · exfalso
      have hnone := List.find?_eq_none.mp hfind h hmem
      simp [hf h hmem] at hnone
    · have hpred := List.find?_some hfind
      have hmem2 := List.mem_of_find?_eq_some hfind
      simp only [Bool.and_eq_true, beq_iff_eq] at hpred
      have heq2 : h2 = h :=
        List.inj_on_of_nodup_map hnd hmem2 hmem hpred.2.symm
      simp [hfind, heq2]
  have hok1 : is_already_extracted (applyExtract env (parentPath entry) hs m) hs
      (parentPath entry) = .ok true := by
    apply (is_already_ok_true_iff (applyExtract env (parentPath entry) hs m)
      (parentPath entry) hs).mpr
    intro h hmem
    simp [entryMatches, hstat2 h hmem]
  refine ⟨hok1, ?_⟩
  have hstatE : (applyExtract env (parentPath entry) hs m).stat entry = .found sz mt := by
    show (match hs.find? (fun h2 => h2.is_file
        && (entry == joinPath (parentPath entry) h2.filename)) with
      | some h2 => StatResult.found h2.unpacked_size m
      | none => env.stat entry) = .found sz mt
    rcases hfind : hs.find? (fun h2 => h2.is_file
        && (entry == joinPath (parentPath entry) h2.filename)) with _ | h2
    · simp [hstat, hfind]
    · have hpred := List.find?_some hfind
      have hmem2 := List.mem_of_find?_eq_some hfind
      simp only [Bool.and_eq_true, beq_iff_eq] at hpred
      exact absurd hpred.2.symm (hne h2 hmem2)
  have hopen2 : (applyExtract env (parentPath entry) hs m).openArchive entry = some hs := hopen
  have heq : process_entry (applyExtract env (parentPath entry) hs m) false none q0 entry
      = nestedLoop (applyExtract env (parentPath entry) hs m) (parentPath entry) mt hs q0 [] := by
    simp only [process_entry, hstatE, hopen2, hok1]
    cases hst3 : (nestedLoop (applyExtract env (parentPath entry) hs m) (parentPath entry)
        mt hs q0 []).status <;> simp [hst3]
  intro e he
  rw [heq] at he
  obtain ⟨tail, hteq, hall⟩ := nestedLoop_effects_extend
    (applyExtract env (parentPath entry) hs m) (parentPath entry) mt hs q0 []
  rw [hteq] at he
  exact hall e (by simpa using he)

/-- C9 witness: after extracting the one-entry manifest of d/a.rar, the
completeness check over the extracted state returns Ok(true). -/
theorem c9_second_run_idempotent_witness :
    is_already_extracted (applyExtract envC9 (parentPath "d/a.rar") [⟨"x.bin", 5, true⟩] 3)
      [⟨"x.bin", 5, true⟩] (parentPath "d/a.rar") = .ok true :=
  (c9_second_run_idempotent envC9 "d/a.rar" 10 2 3 [⟨"x.bin", 5, true⟩] [] rfl rfl
    (by decide) (by decide) (by decide)).1
